import Mathlib

/-!
Verification of the frame-selection and box-overlay pipeline of the
self-driving demo application (`app.py`), shallowly embedded in Lean.

The embedding covers the pure logic of the application: the summary
aggregation (`create_summary`), the frame selection
(`get_selected_frames`), the box overlay renderer (`add_boxes`), the
weights provisioning (`check_weights_hash` / `download_weights`) and the
empty-selection control flow of `main`.
-/

namespace SelfDriving

/-- An annotation row of the metadata table, with columns
`frame, xmin, ymin, xmax, ymax, label`. -/
structure Row where
  frame : String
  xmin : Nat
  ymin : Nat
  xmax : Nat
  ymax : Nat
  label : String
deriving Repr, DecidableEq

/-- Insertion of a string into a list kept in nondecreasing order. -/
def insertStr (a : String) : List String → List String
  | [] => [a]
  | b :: bs => if a ≤ b then a :: b :: bs else b :: insertStr a bs

/-- Insertion sort on strings; the `groupby` aggregation and the
`get_dummies` encoding both emit their keys in sorted order. -/
def sortStr : List String → List String
  | [] => []
  | a :: as => insertStr a (sortStr as)

/-- A summary table: a row per frame (in row order `index`), a column per
label, and a count in each cell. -/
structure Summary where
  index : List String
  columns : List String
  cell : String → String → Nat

/-- One-hot encoding of the label column (`pd.get_dummies`): the indicator
of row `r` carrying label `l`. -/
def oneHot (r : Row) (l : String) : Nat := if r.label = l then 1 else 0

/-- `create_summary`: one-hot encode the label column of
`metadata[['frame', 'label']]`, group the rows by frame and sum the
one-hot columns per group. The row index is the sorted list of distinct
frames, the columns the sorted distinct labels, and the cell at `(f, l)`
the sum over the rows of frame `f` of the one-hot indicator for `l`. -/
def create_summary (metadata : List Row) : Summary where
  index := sortStr (metadata.map Row.frame).dedup
  columns := sortStr (metadata.map Row.label).dedup
  cell := fun f l =>
    ((metadata.filter (fun r => r.frame == f)).map (fun r => oneHot r l)).sum

/-- `get_selected_frames`: keep the rows of the summary whose count for
`label` satisfies `min_elts <= count` and `count <= max_elts`
(`summary[np.logical_and(summary[label] >= min_elts, summary[label] <= max_elts)].index`);
boolean indexing preserves the summary's row order. -/
def get_selected_frames (summary : Summary) (label : String)
    (min_elts max_elts : Int) : List String :=
  summary.index.filter fun f =>
    decide (min_elts ≤ (summary.cell f label : Int)) &&
    decide ((summary.cell f label : Int) ≤ max_elts)

theorem mem_insertStr (a x : String) (l : List String) :
    x ∈ insertStr a l ↔ x = a ∨ x ∈ l := by
  induction l with
  | nil => simp [insertStr]
  | cons b bs ih =>
    by_cases h : a ≤ b
    · simp [insertStr, h]
    · simp [insertStr, h, ih]
      tauto

theorem mem_sortStr (x : String) (l : List String) :
    x ∈ sortStr l ↔ x ∈ l := by
  induction l with
  | nil => simp [sortStr]
  | cons a as ih => simp [sortStr, mem_insertStr, ih]

theorem oneHot_sum_eq_count (T : List Row) (f l : String) :
    ((T.filter (fun r => r.frame == f)).map (fun r => oneHot r l)).sum =
    (T.filter (fun r => r.frame == f && r.label == l)).length := by
  induction T with
  | nil => rfl
  | cons r T ih =>
    simp only [oneHot] at ih ⊢
    by_cases hf : r.frame = f
    · by_cases hl : r.label = l <;>
        simp [List.filter_cons, hf, hl, ih] <;> omega
    · simp [List.filter_cons, hf, ih]

/-- **C1**: for every summary table `S`, label `L` present as a column and
integer bounds `a`, `b`, the frame selector returns exactly the frames `F`
with `a ≤ S[F, L] ≤ b` (inclusive on both ends, none omitted), in the
summary table's row order, and when `a > b` the result is empty. -/
theorem frame_selector_range (S : Summary) (L : String) (a b : Int)
    (hL : L ∈ S.columns) :
    (∀ F, F ∈ get_selected_frames S L a b ↔
        F ∈ S.index ∧ a ≤ (S.cell F L : Int) ∧ (S.cell F L : Int) ≤ b)
    ∧ (get_selected_frames S L a b).Sublist S.index
    ∧ (b < a → get_selected_frames S L a b = []) := by
  refine ⟨?_, List.filter_sublist _, ?_⟩
  · intro F
    simp [get_selected_frames, List.mem_filter, and_assoc]
  · intro hab
    rw [get_selected_frames, List.filter_eq_nil_iff]
    intro F _
    simp only [Bool.and_eq_true, decide_eq_true_eq, not_and]
    intro h1 h2
    omega

/-- Witness for C1 on a concrete one-row summary table. -/
theorem frame_selector_range_witness :
    let S : Summary := ⟨["f1"], ["car"], fun _ _ => 3⟩
    "car" ∈ S.columns ∧
    ((∀ F, F ∈ get_selected_frames S "car" 0 5 ↔
        F ∈ S.index ∧ (0 : Int) ≤ (S.cell F "car" : Int) ∧ (S.cell F "car" : Int) ≤ 5)
      ∧ (get_selected_frames S "car" 0 5).Sublist S.index
      ∧ ((5 : Int) < 0 → get_selected_frames S "car" 0 5 = [])) :=
  ⟨by decide, frame_selector_range ⟨["f1"], ["car"], fun _ _ => 3⟩ "car" 0 5 (by decide)⟩

/-- **C2**: for every annotation table `T`, the summary aggregator has
exactly the distinct frames of `T` as its row index (no frame absent from
`T` appears), and its cell at `(F, L)` is the number of rows of `T` with
frame `F` and label `L`. -/
theorem summary_aggregator_counts (T : List Row) :
    (∀ f, f ∈ (create_summary T).index ↔ f ∈ T.map Row.frame)
    ∧ ∀ f l, (create_summary T).cell f l =
        (T.filter (fun r => r.frame == f && r.label == l)).length := by
  constructor
  · intro f
    simp [create_summary, mem_sortStr, List.mem_dedup]
  · intro f l
    exact oneHot_sum_eq_count T f l

/-- A uint8 RGB pixel: three channel values, each meant to lie in 0–255. -/
abbrev Pixel := Nat × Nat × Nat

/-- A float64 RGB pixel. The blend arithmetic of `add_boxes` on 8-bit data
(`+` of integers up to 255 and `/ 2`) is exact in float64, so the float64
channels are modelled by exact rationals. -/
abbrev QPixel := ℚ × ℚ × ℚ

/-- An RGB color of the label→color table. -/
abbrev Color := Nat × Nat × Nat

/-- A uint8 image: rows of pixels (height × width × 3). -/
abbrev ImageN := List (List Pixel)

/-- A float64 image. -/
abbrev ImageQ := List (List QPixel)

/-- The fixed label→color mapping `LABEL_COLORS` (5 labels). -/
def LABEL_COLORS : List (String × Color) :=
  [("car", (255, 0, 0)),
   ("pedestrian", (0, 255, 0)),
   ("truck", (0, 0, 255)),
   ("trafficLight", (255, 255, 0)),
   ("biker", (255, 0, 255))]

/-- Convert a uint8 pixel to float64 channels. -/
def toQPixel (p : Pixel) : QPixel := ((p.1 : ℚ), (p.2.1 : ℚ), (p.2.2 : ℚ))

/-- `image.astype(np.float64)`: a fresh float64 copy of the image. -/
def toFloat64 (img : ImageN) : ImageQ := img.map (fun row => row.map toQPixel)

/-- `astype(np.uint8)` on a float64 channel: truncation toward zero reduced
mod 256 (C cast semantics); a value in `[0, 255]` is simply floored. -/
def toUint8 (q : ℚ) : Nat := (⌊q⌋).toNat % 256

/-- `astype(np.uint8)` on a float64 pixel. -/
def toUint8Pixel (p : QPixel) : Pixel := (toUint8 p.1, toUint8 p.2.1, toUint8 p.2.2)

/-- `astype(np.uint8)` on a float64 image. -/
def toUint8Image (img : ImageQ) : ImageN := img.map (fun row => row.map toUint8Pixel)

/-- A bounding box row of a box table (the metadata with the frame column
dropped): columns `xmin, ymin, xmax, ymax, label`, iterated in that
order by `boxes.iterrows()`. -/
structure Box where
  xmin : Nat
  ymin : Nat
  xmax : Nat
  ymax : Nat
  label : String
deriving Repr, DecidableEq

/-- Apply `f` to the entries of a list whose index lies in `[x0, x1)`,
starting the index count at `x`. This is NumPy slice assignment along one
axis: an out-of-range part of the slice clips silently. -/
def mapSlice (x0 x1 : Nat) (f : α → α) : Nat → List α → List α
  | _, [] => []
  | x, p :: ps => (if x0 ≤ x ∧ x < x1 then f p else p) :: mapSlice x0 x1 f (x + 1) ps

/-- Apply `f` to each pixel of the region `[y0:y1, x0:x1]` of an image
(the slice `image[ymin:ymax, xmin:xmax, :]`). -/
def mapRegion (y0 y1 x0 x1 : Nat) (f : QPixel → QPixel) (img : ImageQ) : ImageQ :=
  mapSlice y0 y1 (fun row => mapSlice x0 x1 f 0 row) 0 img

/-- Add a color to a float64 pixel, channelwise (`+= LABEL_COLORS[label]`). -/
def addColor (c : Color) (p : QPixel) : QPixel :=
  (p.1 + (c.1 : ℚ), p.2.1 + (c.2.1 : ℚ), p.2.2 + (c.2.2 : ℚ))

/-- Halve a float64 pixel, channelwise (`/= 2`). -/
def halfPixel (p : QPixel) : QPixel := (p.1 / 2, p.2.1 / 2, p.2.2 / 2)

/-- One iteration of the `add_boxes` loop:
`image[ymin:ymax, xmin:xmax, :] += LABEL_COLORS[label]` followed by
`image[ymin:ymax, xmin:xmax, :] /= 2`. -/
def applyBox (b : Box) (c : Color) (img : ImageQ) : ImageQ :=
  mapRegion b.ymin b.ymax b.xmin b.xmax halfPixel
    (mapRegion b.ymin b.ymax b.xmin b.xmax (addColor c) img)

/-- The `add_boxes` loop over the box table, in table order. A label
missing from `LABEL_COLORS` raises `KeyError` at its iteration, modelled
as `none`. -/
def applyBoxes (img : ImageQ) : List Box → Option ImageQ
  | [] => some img
  | b :: bs =>
    match LABEL_COLORS.lookup b.label with
    | none => none
    | some c => applyBoxes (applyBox b c img) bs

/-- `add_boxes`: copy the image to float64, blend each box region toward
its label's color in table order, and convert the result back to uint8. -/
def add_boxes (image : ImageN) (boxes : List Box) : Option ImageN :=
  (applyBoxes (toFloat64 image) boxes).map toUint8Image

/-- The pixel of an image at row `y`, column `x`, when in bounds. -/
def getPixel (img : List (List α)) (y x : Nat) : Option α :=
  img[y]?.bind (fun row => row[x]?)

/-- Position `(y, x)` lies in the pixel region of box `b`. -/
def inRegion (b : Box) (y x : Nat) : Prop :=
  b.ymin ≤ y ∧ y < b.ymax ∧ b.xmin ≤ x ∧ x < b.xmax

instance (b : Box) (y x : Nat) : Decidable (inRegion b y x) := by
  unfold inRegion
  infer_instance

/-- All three channels of a uint8 pixel lie in 0–255. -/
def ValidPixel (p : Pixel) : Prop := p.1 ≤ 255 ∧ p.2.1 ≤ 255 ∧ p.2.2 ≤ 255

/-- All pixels of a uint8 image lie in 0–255. -/
def ValidImage (img : ImageN) : Prop := ∀ row ∈ img, ∀ p ∈ row, ValidPixel p

instance (p : Pixel) : Decidable (ValidPixel p) := by
  unfold ValidPixel
  infer_instance

instance (img : ImageN) : Decidable (ValidImage img) := by
  unfold ValidImage
  infer_instance

theorem getElem_mapSlice (x0 x1 : Nat) (f : α → α) (k i : Nat) (l : List α) :
    (mapSlice x0 x1 f k l)[i]? =
      (l[i]?).map (fun a => if x0 ≤ k + i ∧ k + i < x1 then f a else a) := by
  induction l generalizing k i with
  | nil => simp [mapSlice]
  | cons p ps ih =>
    cases i with
    | zero => simp [mapSlice]
    | succ j =>
      simp only [mapSlice, List.getElem?_cons_succ, ih (k + 1) j,
        Nat.add_succ, Nat.succ_add]

theorem getPixel_mapImage (f : α → β) (img : List (List α)) (y x : Nat) :
    getPixel (img.map (fun row => row.map f)) y x = (getPixel img y x).map f := by
  unfold getPixel
  rw [List.getElem?_map]
  cases img[y]? with
  | none => rfl
  | some row => simp [List.getElem?_map]

theorem getPixel_mapRegion (y0 y1 x0 x1 : Nat) (f : QPixel → QPixel)
    (img : ImageQ) (y x : Nat) :
    getPixel (mapRegion y0 y1 x0 x1 f img) y x =
      (getPixel img y x).map
        (fun p => if y0 ≤ y ∧ y < y1 ∧ x0 ≤ x ∧ x < x1 then f p else p) := by
  unfold getPixel mapRegion
  rw [getElem_mapSlice]
  cases himg : img[y]? with
  | none => rfl
  | some row =>
    simp only [Nat.zero_add, Option.map_some', Option.some_bind]
    by_cases hy : y0 ≤ y ∧ y < y1
    · rw [if_pos hy, getElem_mapSlice]
      cases hrow : row[x]? with
      | none => rfl
      | some p =>
        simp only [Nat.zero_add, Option.map_some']
        by_cases hx : x0 ≤ x ∧ x < x1
        · rw [if_pos hx, if_pos ⟨hy.1, hy.2, hx.1, hx.2⟩]
        · rw [if_neg hx, if_neg (by tauto)]
    · rw [if_neg hy]
      cases hrow : row[x]? with
      | none => rfl
      | some p =>
        simp only [Option.map_some']
        rw [if_neg (by tauto)]

theorem getPixel_applyBox_outside (b : Box) (c : Color) (img : ImageQ)
    (y x : Nat) (h : ¬ inRegion b y x) :
    getPixel (applyBox b c img) y x = getPixel img y x := by
  unfold applyBox
  rw [getPixel_mapRegion, getPixel_mapRegion]
  unfold inRegion at h
  cases getPixel img y x with
  | none => rfl
  | some p => simp [if_neg h]

theorem getPixel_applyBox_inside (b : Box) (c : Color) (img : ImageQ)
    (y x : Nat) (h : inRegion b y x) :
    getPixel (applyBox b c img) y x =
      (getPixel img y x).map (fun p => halfPixel (addColor c p)) := by
  unfold applyBox
  rw [getPixel_mapRegion, getPixel_mapRegion]
  unfold inRegion at h
  cases getPixel img y x with
  | none => rfl
  | some p => simp [if_pos h]

theorem applyBoxes_outside (y x : Nat) (boxes : List Box) :
    ∀ (img w : ImageQ), applyBoxes img boxes = some w →
      (∀ b ∈ boxes, ¬ inRegion b y x) → getPixel w y x = getPixel img y x := by
  induction boxes with
  | nil =>
    intro img w h _
    cases h
    rfl
  | cons b bs ih =>
    intro img w h hb
    unfold applyBoxes at h
    cases hc : LABEL_COLORS.lookup b.label with
    | none => rw [hc] at h; cases h
    | some c =>
      rw [hc] at h
      have h1 := ih _ _ h (fun b2 hb2 => hb b2 (List.mem_cons_of_mem _ hb2))
      rw [h1, getPixel_applyBox_outside _ _ _ _ _ (hb b (List.mem_cons_self _ _))]

theorem toUint8Pixel_toQPixel (p : Pixel) (hp : ValidPixel p) :
    toUint8Pixel (toQPixel p) = p := by
  obtain ⟨h1, h2, h3⟩ := hp
  unfold toUint8Pixel toQPixel toUint8
  simp only [Int.floor_natCast, Int.toNat_natCast]
  rw [Nat.mod_eq_of_lt (by omega), Nat.mod_eq_of_lt (by omega),
    Nat.mod_eq_of_lt (by omega)]

theorem roundtrip_image (img : ImageN) (hv : ValidImage img) :
    toUint8Image (toFloat64 img) = img := by
  unfold toUint8Image toFloat64
  rw [List.map_map]
  conv_rhs => rw [(List.map_id img).symm]
  apply List.map_congr_left
  intro row hrow
  simp only [Function.comp, List.map_map, List.map_id_fun, id]
  conv_rhs => rw [(List.map_id row).symm]
  apply List.map_congr_left
  intro p hp
  exact toUint8Pixel_toQPixel p (hv row hrow p hp)

theorem getPixel_valid (img : ImageN) (hv : ValidImage img) (y x : Nat) (p : Pixel)
    (h : getPixel img y x = some p) : ValidPixel p := by
  unfold getPixel at h
  cases himg : img[y]? with
  | none => rw [himg] at h; cases h
  | some row =>
    rw [himg, Option.some_bind] at h
    exact hv row (List.getElem?_mem himg) p (List.getElem?_mem h)

/-- **C3**: for every uint8 image, a pixel outside every box region is
unchanged by `add_boxes`, and for a box with a mapped label the pixels of
the region `[ymin:ymax, xmin:xmax]` are set to `(pixel + color) / 2`,
computed in the wider float64 type (no overflow) and then truncated back
to the 0–255 integer depth. -/
theorem box_overlay_pixel_rule (img : ImageN) (hv : ValidImage img) (y x : Nat) :
    (∀ (boxes : List Box) (out : ImageN), add_boxes img boxes = some out →
        (∀ b ∈ boxes, ¬ inRegion b y x) → getPixel out y x = getPixel img y x)
    ∧ (∀ (b : Box) (c : Color), LABEL_COLORS.lookup b.label = some c →
        inRegion b y x →
        add_boxes img [b] = some (toUint8Image (applyBox b c (toFloat64 img))) ∧
        getPixel (toUint8Image (applyBox b c (toFloat64 img))) y x =
          (getPixel img y x).map
            (fun p => toUint8Pixel (halfPixel (addColor c (toQPixel p))))) := by
  constructor
  · intro boxes out hout hb
    unfold add_boxes at hout
    cases hw : applyBoxes (toFloat64 img) boxes with
    | none => rw [hw] at hout; cases hout
    | some w =>
      rw [hw, Option.map_some'] at hout
      injection hout with hout2
      subst hout2
      have h1 := applyBoxes_outside y x boxes (toFloat64 img) w hw hb
      unfold toUint8Image
      rw [getPixel_mapImage, h1]
      unfold toFloat64
      rw [getPixel_mapImage]
      cases hp : getPixel img y x with
      | none => rfl
      | some p =>
        simp only [Option.map_some']
        rw [toUint8Pixel_toQPixel p (getPixel_valid img hv y x p hp)]
  · intro b c hc hin
    have e1 : add_boxes img [b] =
        some (toUint8Image (applyBox b c (toFloat64 img))) := by
      simp [add_boxes, applyBoxes, hc]
    refine ⟨e1, ?_⟩
    unfold toUint8Image
    rw [getPixel_mapImage, getPixel_applyBox_inside _ _ _ _ _ hin]
    unfold toFloat64
    rw [getPixel_mapImage]
    cases getPixel img y x with
    | none => rfl
    | some p => simp only [Option.map_some']

/-- Witness for C3 on a concrete 1×1 image at position (0, 0). -/
theorem box_overlay_pixel_rule_witness :
    ValidImage [[(10, 20, 30)]] ∧
    ((∀ (boxes : List Box) (out : ImageN),
        add_boxes [[(10, 20, 30)]] boxes = some out →
        (∀ b ∈ boxes, ¬ inRegion b 0 0) →
        getPixel out 0 0 = getPixel [[(10, 20, 30)]] 0 0)
      ∧ (∀ (b : Box) (c : Color), LABEL_COLORS.lookup b.label = some c →
          inRegion b 0 0 →
          add_boxes [[(10, 20, 30)]] [b] =
            some (toUint8Image (applyBox b c (toFloat64 [[(10, 20, 30)]]))) ∧
          getPixel (toUint8Image (applyBox b c (toFloat64 [[(10, 20, 30)]]))) 0 0 =
            (getPixel [[(10, 20, 30)]] 0 0).map
              (fun p => toUint8Pixel (halfPixel (addColor c (toQPixel p)))))) :=
  ⟨by decide, box_overlay_pixel_rule [[(10, 20, 30)]] (by decide) 0 0⟩

/-- **C4**: box blending compounds in table order: a pixel covered by two
boxes of the same color `C` is rendered as `((O + C)/2 + C)/2` (computed
in float64, truncated once at the end), not `(O + C)/2`; a concrete
non-idempotence instance is included. -/
theorem box_overlay_compounds (img : ImageN) (y x : Nat) (b1 b2 : Box) (c : Color)
    (h1 : LABEL_COLORS.lookup b1.label = some c)
    (h2 : LABEL_COLORS.lookup b2.label = some c)
    (hin1 : inRegion b1 y x) (hin2 : inRegion b2 y x) :
    (∀ out, add_boxes img [b1, b2] = some out →
        getPixel out y x = (getPixel img y x).map
          (fun p => toUint8Pixel (halfPixel (addColor c (halfPixel (addColor c (toQPixel p)))))))
    ∧ add_boxes [[(0, 0, 0)]] [⟨0, 0, 1, 1, "car"⟩, ⟨0, 0, 1, 1, "car"⟩] ≠
        add_boxes [[(0, 0, 0)]] [⟨0, 0, 1, 1, "car"⟩] := by
  constructor
  · intro out hout
    have e1 : add_boxes img [b1, b2] =
        some (toUint8Image (applyBox b2 c (applyBox b1 c (toFloat64 img)))) := by
      simp [add_boxes, applyBoxes, h1, h2]
    rw [e1] at hout
    injection hout with hout2
    subst hout2
    unfold toUint8Image
    rw [getPixel_mapImage, getPixel_applyBox_inside _ _ _ _ _ hin2,
      getPixel_applyBox_inside _ _ _ _ _ hin1]
    unfold toFloat64
    rw [getPixel_mapImage]
    cases getPixel img y x with
    | none => rfl
    | some p => simp only [Option.map_some']
  · have hch2 : toUint8 (((255 : ℚ) / 2 + 255) / 2) = 191 := by
      unfold toUint8
      norm_num
      try decide
    have hch1 : toUint8 ((255 : ℚ) / 2) = 127 := by
      unfold toUint8
      norm_num
      try decide
    have hch0 : toUint8 ((0 : ℚ)) = 0 := by
      unfold toUint8
      norm_num
    have eL : add_boxes [[(0, 0, 0)]] [⟨0, 0, 1, 1, "car"⟩, ⟨0, 0, 1, 1, "car"⟩] =
        some [[(191, 0, 0)]] := by
      simp [add_boxes, applyBoxes, applyBox, LABEL_COLORS, mapRegion, mapSlice,
        toFloat64, toQPixel, toUint8Image, toUint8Pixel, addColor, halfPixel,
        hch2, hch0]
    have eR : add_boxes [[(0, 0, 0)]] [⟨0, 0, 1, 1, "car"⟩] =
        some [[(127, 0, 0)]] := by
      simp [add_boxes, applyBoxes, applyBox, LABEL_COLORS, mapRegion, mapSlice,
        toFloat64, toQPixel, toUint8Image, toUint8Pixel, addColor, halfPixel,
        hch1, hch0]
    rw [eL, eR]
    intro h
    injection h with h2
    cases h2

/-- Witness for C4: the same unit box applied twice at pixel (0, 0). -/
theorem box_overlay_compounds_witness :
    LABEL_COLORS.lookup (Box.label ⟨0, 0, 1, 1, "car"⟩) = some (255, 0, 0) ∧
    inRegion ⟨0, 0, 1, 1, "car"⟩ 0 0 ∧
    ((∀ out, add_boxes [[(0, 0, 0)]] [⟨0, 0, 1, 1, "car"⟩, ⟨0, 0, 1, 1, "car"⟩] = some out →
        getPixel out 0 0 = (getPixel [[(0, 0, 0)]] 0 0).map
          (fun p => toUint8Pixel (halfPixel (addColor (255, 0, 0)
            (halfPixel (addColor (255, 0, 0) (toQPixel p)))))))
      ∧ add_boxes [[(0, 0, 0)]] [⟨0, 0, 1, 1, "car"⟩, ⟨0, 0, 1, 1, "car"⟩] ≠
          add_boxes [[(0, 0, 0)]] [⟨0, 0, 1, 1, "car"⟩]) :=
  ⟨by decide, by decide,
    box_overlay_compounds [[(0, 0, 0)]] 0 0 ⟨0, 0, 1, 1, "car"⟩ ⟨0, 0, 1, 1, "car"⟩
      (255, 0, 0) (by decide) (by decide) (by decide) (by decide)⟩

/-- The result of one `add_boxes` call together with the caller's buffer
after the call. The first statement `image = image.astype(np.float64)`
allocates a fresh float64 array (`ndarray.astype` copies by default), so
the in-place `+=` and `/=` of the loop write to that copy and the
caller's array is never written. -/
structure AddBoxesCall where
  callerImage : ImageN
  result : Option ImageN

/-- `add_boxes` with the caller's buffer made explicit. -/
def add_boxes_call (image : ImageN) (boxes : List Box) : AddBoxesCall :=
  let work := toFloat64 image
  { callerImage := image, result := (applyBoxes work boxes).map toUint8Image }

/-- **C5**: `add_boxes` returns a new image buffer and leaves the input
image unmodified: after the call the caller's buffer still holds every
pixel it held before, and the returned buffer is the rendered result. -/
theorem add_boxes_no_mutation (image : ImageN) (boxes : List Box) :
    (add_boxes_call image boxes).callerImage = image
    ∧ (add_boxes_call image boxes).result = add_boxes image boxes :=
  ⟨rfl, rfl⟩

/-- **C9**: applying the renderer with an empty box table returns an image
equal pixel for pixel to the input: the float64 copy is converted straight
back to uint8. -/
theorem empty_box_table_identity (img : ImageN) (hv : ValidImage img) :
    add_boxes img [] = some img := by
  simp [add_boxes, applyBoxes, roundtrip_image img hv]

/-- Witness for C9 on a concrete 1×1 image. -/
theorem empty_box_table_identity_witness :
    ValidImage [[(5, 6, 7)]] ∧ add_boxes [[(5, 6, 7)]] [] = some [[(5, 6, 7)]] :=
  ⟨by decide, empty_box_table_identity [[(5, 6, 7)]] (by decide)⟩

/-- **C10**: a box whose label is missing from the five-key color mapping
makes `add_boxes` fail with a key-lookup error (`LABEL_COLORS[label]`
raises `KeyError`), rather than skip the box. -/
theorem unmapped_label_fails (img : ImageN) (boxes : List Box) (b : Box)
    (hb : b ∈ boxes) (hl : LABEL_COLORS.lookup b.label = none) :
    add_boxes img boxes = none := by
  unfold add_boxes
  suffices h : ∀ w : ImageQ, applyBoxes w boxes = none by
    rw [h (toFloat64 img)]
    rfl
  induction boxes with
  | nil => cases hb
  | cons b2 bs ih =>
    intro w
    rcases List.mem_cons.mp hb with rfl | hb2
    · simp [applyBoxes, hl]
    · cases hc : LABEL_COLORS.lookup b2.label with
      | none => simp [applyBoxes, hc]
      | some c => simp [applyBoxes, hc, ih hb2]

/-- Witness for C10: a box labelled `bus`, absent from `LABEL_COLORS`. -/
theorem unmapped_label_fails_witness :
    (⟨0, 0, 1, 1, "bus"⟩ : Box) ∈ [(⟨0, 0, 1, 1, "bus"⟩ : Box)] ∧
    LABEL_COLORS.lookup (Box.label ⟨0, 0, 1, 1, "bus"⟩) = none ∧
    add_boxes [[(1, 2, 3)]] [⟨0, 0, 1, 1, "bus"⟩] = none :=
  ⟨by decide, by decide,
    unmapped_label_fails [[(1, 2, 3)]] [⟨0, 0, 1, 1, "bus"⟩] ⟨0, 0, 1, 1, "bus"⟩
      (by decide) (by decide)⟩

/-- The known-good md5 hex digest of the weights file (the constant
`WEIGTHS_MD5`; the name keeps the source's spelling). -/
def WEIGTHS_MD5 : String := "c84e5b99d0e52cd466ae710cadf6d84c"

/-- `check_weights_hash`: `False` when the weights file does not exist;
otherwise read the whole file, compute its md5 hex digest and compare it
with `WEIGTHS_MD5` (`if str(m.hexdigest()) != WEIGTHS_MD5: return False`,
otherwise `True`). The local file system is modelled by the optional byte
content of the weights file and the digest by an explicit function. -/
def check_weights_hash (md5hex : List Nat → String) (file : Option (List Nat)) : Bool :=
  match file with
  | none => false
  | some content => if md5hex content ≠ WEIGTHS_MD5 then false else true

/-- The observable outcome of a `download_weights` call: whether the
remote URL was opened, and the weights file content afterwards. -/
structure DownloadOutcome where
  networkCalled : Bool
  file : Option (List Nat)
deriving Repr, DecidableEq

/-- `download_weights`: return immediately when `check_weights_hash`
passes; otherwise open the remote URL and stream its bytes to the local
weights file. -/
def download_weights (md5hex : List Nat → String) (file : Option (List Nat))
    (remote : List Nat) : DownloadOutcome :=
  if check_weights_hash md5hex file then ⟨false, file⟩
  else ⟨true, some remote⟩

/-- **C6**: the Weights Provisioner downloads iff the local checksum check
fails: with a file present whose digest equals `WEIGTHS_MD5` it returns
with no network call, and with the file absent or its digest different a
full redownload is triggered even though a file may exist. -/
theorem weights_download_iff (m : List Nat → String) (file : Option (List Nat))
    (remote : List Nat) :
    ((download_weights m file remote).networkCalled = !(check_weights_hash m file))
    ∧ (∀ content, file = some content → m content = WEIGTHS_MD5 →
        download_weights m file remote = ⟨false, file⟩)
    ∧ ((file = none ∨ ∃ content, file = some content ∧ m content ≠ WEIGTHS_MD5) →
        download_weights m file remote = ⟨true, some remote⟩) := by
  refine ⟨?_, ?_, ?_⟩
  · cases h : check_weights_hash m file <;> simp [download_weights, h]
  · rintro content rfl hm
    simp [download_weights, check_weights_hash, hm]
  · rintro (rfl | ⟨content, rfl, hm⟩)
    · simp [download_weights, check_weights_hash]
    · simp [download_weights, check_weights_hash, hm]

/-- Witness for C6 with no weights file on disk. -/
theorem weights_download_iff_witness :
    ((download_weights (fun _ => "") none [1, 2]).networkCalled =
        !(check_weights_hash (fun _ => "") none))
    ∧ (∀ content, (none : Option (List Nat)) = some content →
        (fun _ => "") content = WEIGTHS_MD5 →
        download_weights (fun _ => "") none [1, 2] = ⟨false, none⟩)
    ∧ (((none : Option (List Nat)) = none ∨
        ∃ content, (none : Option (List Nat)) = some content ∧
          (fun _ => "") content ≠ WEIGTHS_MD5) →
        download_weights (fun _ => "") none [1, 2] = ⟨true, some [1, 2]⟩) :=
  weights_download_iff (fun _ => "") none [1, 2]

/-- The sizes of the successive `response.read(8192)` results when `n`
bytes remain in the stream: full 8192-byte chunks, then the final short
chunk; the loop exits on the empty read. -/
def readChunks : Nat → List Nat
  | 0 => []
  | n + 1 => (min 8192 (n + 1)) :: readChunks (n + 1 - min 8192 (n + 1))
decreasing_by
  omega

/-- One progress-bar update per chunk: after each chunk the byte counter
advances by the chunk size and `progress = counter / length` is reported,
clamped at `1.0`
(`progress_bar.progress(progress if progress <= 1.0 else 1.0)`). -/
def reportLoop (length : Nat) : Nat → List Nat → List ℚ
  | _, [] => []
  | counter, c :: cs =>
    (if ((counter + c : Nat) : ℚ) / (length : ℚ) ≤ 1
      then ((counter + c : Nat) : ℚ) / (length : ℚ)
      else 1) :: reportLoop length (counter + c) cs

/-- The sequence of values sent to the progress bar during a download of
`length` bytes (the `Content-Length` header value, assumed accurate). -/
def progressReports (length : Nat) : List ℚ :=
  reportLoop length 0 (readChunks length)

theorem readChunks_sum (n : Nat) : (readChunks n).sum = n := by
  induction n using Nat.strong_induction_on with
  | _ n ih =>
    match n with
    | 0 => simp [readChunks]
    | m + 1 =>
      rw [readChunks]
      simp only [List.sum_cons]
      rw [ih (m + 1 - min 8192 (m + 1)) (by omega)]
      omega

theorem readChunks_length (n : Nat) : (readChunks n).length = (n + 8191) / 8192 := by
  induction n using Nat.strong_induction_on with
  | _ n ih =>
    match n with
    | 0 => simp [readChunks]
    | m + 1 =>
      rw [readChunks]
      simp only [List.length_cons]
      rw [ih (m + 1 - min 8192 (m + 1)) (by omega)]
      omega

theorem readChunks_ne_nil (n : Nat) (hn : 0 < n) : readChunks n ≠ [] := by
  match n, hn with
  | m + 1, _ =>
    rw [readChunks]
    exact List.cons_ne_nil _ _

theorem reportLoop_length (N : Nat) :
    ∀ (l : List Nat) (counter : Nat), (reportLoop N counter l).length = l.length := by
  intro l
  induction l with
  | nil => intro counter; rfl
  | cons c cs ih =>
    intro counter
    simp only [reportLoop, List.length_cons, ih]

theorem reportLoop_mem (N : Nat) :
    ∀ (l : List Nat) (counter : Nat), counter + l.sum ≤ N →
      ∀ p ∈ reportLoop N counter l, ∃ k, k ≤ N ∧ p = (k : ℚ) / (N : ℚ) := by
  intro l
  induction l with
  | nil =>
    intro counter _ p hp
    cases hp
  | cons c cs ih =>
    intro counter hle p hp
    simp only [reportLoop, List.mem_cons] at hp
    rcases hp with rfl | hp
    · have hk : counter + c ≤ N := by
        simp only [List.sum_cons] at hle
        omega
      have hle1 : ((counter + c : Nat) : ℚ) / (N : ℚ) ≤ 1 := by
        apply div_le_one_of_le₀
        · exact_mod_cast hk
        · positivity
      exact ⟨counter + c, hk, by rw [if_pos hle1]⟩
    · apply ih (counter + c) ?_ p hp
      simp only [List.sum_cons] at hle
      omega

theorem reportLoop_last (N : Nat) (hN : 0 < N) :
    ∀ (l : List Nat) (counter : Nat), l ≠ [] → counter + l.sum = N →
      (reportLoop N counter l).getLast? = some 1 := by
  intro l
  induction l with
  | nil =>
    intro counter h _
    cases h rfl
  | cons c cs ih =>
    intro counter _ hsum
    cases cs with
    | nil =>
      have hc : counter + c = N := by
        simpa using hsum
      have hcast : ((counter : ℚ) + (c : ℚ)) = (N : ℚ) := by
        exact_mod_cast hc
      have hdiv : ((counter : ℚ) + (c : ℚ)) / (N : ℚ) = 1 := by
        rw [hcast]
        exact div_self (Nat.cast_ne_zero.mpr hN.ne')
      simp [reportLoop, hdiv]
    | cons c2 cs2 =>
      simp only [reportLoop, List.getLast?_cons_cons]
      apply ih (counter + c) (List.cons_ne_nil _ _)
      simp only [List.sum_cons] at hsum ⊢
      omega

/-- **C7**: during a download of known total length `N` with chunk size
8192, the number of progress updates is `⌈N / 8192⌉`, every reported value
is bytes-received over `N` (clamped at `1.0`, so never above `1`), and the
final update equals `1.0`. -/
theorem download_progress (N : Nat) (hN : 0 < N) :
    (progressReports N).length = (N + 8191) / 8192
    ∧ (∀ p ∈ progressReports N, ∃ k, k ≤ N ∧ p = (k : ℚ) / (N : ℚ))
    ∧ (progressReports N).getLast? = some 1 := by
  refine ⟨?_, ?_, ?_⟩
  · rw [progressReports, reportLoop_length, readChunks_length]
  · intro p hp
    apply reportLoop_mem N (readChunks N) 0 ?_ p hp
    rw [readChunks_sum]
    omega
  · apply reportLoop_last N hN (readChunks N) 0 (readChunks_ne_nil N hN)
    rw [readChunks_sum]
    omega

/-- Witness for C7 at total length 3. -/
theorem download_progress_witness :
    0 < 3 ∧
    ((progressReports 3).length = (3 + 8191) / 8192
      ∧ (∀ p ∈ progressReports 3, ∃ k : Nat, k ≤ 3 ∧ p = (k : ℚ) / (3 : ℚ))
      ∧ (progressReports 3).getLast? = some 1) :=
  ⟨by decide, download_progress 3 (by decide)⟩

/-- The externally visible steps of one `main` render cycle, in order. -/
inductive RenderStep where
  | showError
  | loadImage
  | renderGroundTruth
  | provisionWeights
  | runDetection
  | showWarning
deriving Repr, DecidableEq

/-- The per-frame control flow of `main` after the summary is computed:
`if len(selected_frames) < 1: st.error(...); return` ends the render cycle
with only a user-facing message; otherwise the frame image is loaded, the
ground-truth overlay is rendered and shown, weights are provisioned, and
detection runs only when the checkbox is on (else a warning is shown). -/
def mainRenderSteps (metadata : List Row) (label : String)
    (min_elts max_elts : Int) (runYolo : Bool) : List RenderStep :=
  let summary := create_summary metadata
  let selected_frames := get_selected_frames summary label min_elts max_elts
  if selected_frames.length < 1 then [RenderStep.showError]
  else
    [RenderStep.loadImage, RenderStep.renderGroundTruth, RenderStep.provisionWeights] ++
      (if runYolo then [RenderStep.runDetection] else [RenderStep.showWarning])

/-- **C8**: when the frame selection is empty, the render cycle shows a
user-facing message and halts: no image load, no overlay rendering and no
detection happen, and `main` returns normally (a value, not a fault). -/
theorem empty_selection_halts (metadata : List Row) (label : String)
    (a b : Int) (runYolo : Bool)
    (h : get_selected_frames (create_summary metadata) label a b = []) :
    mainRenderSteps metadata label a b runYolo = [RenderStep.showError]
    ∧ RenderStep.loadImage ∉ mainRenderSteps metadata label a b runYolo
    ∧ RenderStep.renderGroundTruth ∉ mainRenderSteps metadata label a b runYolo
    ∧ RenderStep.runDetection ∉ mainRenderSteps metadata label a b runYolo := by
  have e : mainRenderSteps metadata label a b runYolo = [RenderStep.showError] := by
    simp [mainRenderSteps, h]
  rw [e]
  exact ⟨rfl, by simp, by simp, by simp⟩

/-- Witness for C8 on an empty annotation table. -/
theorem empty_selection_halts_witness :
    get_selected_frames (create_summary []) "car" 0 25 = [] ∧
    (mainRenderSteps [] "car" 0 25 true = [RenderStep.showError]
      ∧ RenderStep.loadImage ∉ mainRenderSteps [] "car" 0 25 true
      ∧ RenderStep.renderGroundTruth ∉ mainRenderSteps [] "car" 0 25 true
      ∧ RenderStep.runDetection ∉ mainRenderSteps [] "car" 0 25 true) :=
  ⟨by decide, empty_selection_halts [] "car" 0 25 true (by decide)⟩

end SelfDriving
